import Mathlib

/-!
Verification of the Chessnut Move driver stack: a shallow embedding of the
protocol codec (src/chessnut_move_stack/driver/codec.py and protocol.py),
the driver's notification dispatch and status projection
(src/chessnut_move_stack/driver/driver.py), and theorems checking the
specified properties against these definitions.

Python strings are embedded as Lean String, bytes/bytearray as List Nat
(each entry a byte value), Optional as Option, raised ValueError as
Except String, and dataclasses as structures.  Imperative loops become
folds or structural recursion; in-place byte writes become List.set.
-/

set_option maxHeartbeats 1000000
set_option maxRecDepth 8000

/-! Section: protocol constants (protocol.py). -/

def CommandType_SYNC : Nat := 0x42
def CommandType_LED : Nat := 0x43
def CommandType_CONTROL : Nat := 0x41
def CommandType_BUZZER_ENABLE : Nat := 0x1B

def MessageType_BOARD_STATE : Nat := 0x01
def MessageType_BATTERY_LEVEL : Nat := 0x2A
def MessageType_COMMAND_RESPONSE : Nat := 0x41

def CommandSubType_POWER_LEVEL : Nat := 0x0C
def CommandSubType_FIRMWARE_VERSION : Nat := 0x09
def CommandSubType_MOVE_PIECE_STATE : Nat := 0x0B

def BOARD_STATE_LENGTH : Nat := 38
def SET_MOVE_BOARD_LENGTH : Nat := 35
def LED_COMMAND_LENGTH : Nat := 34
def MOVE_PIECE_STATE_LENGTH : Nat := 139
def NUM_ROBOTIC_PIECES : Nat := 34

/-- PIECE_TO_VALUE dict of protocol.py, as a function with the
dict.get(piece, 0) default of codec.py built in: unknown characters
(including the space used for an empty square) map to 0. -/
def PIECE_TO_VALUE (c : Char) : Nat :=
  if c = 'q' then 1
  else if c = 'k' then 2
  else if c = 'b' then 3
  else if c = 'p' then 4
  else if c = 'n' then 5
  else if c = 'R' then 6
  else if c = 'P' then 7
  else if c = 'r' then 8
  else if c = 'B' then 9
  else if c = 'N' then 10
  else if c = 'Q' then 11
  else if c = 'K' then 12
  else 0

/-- VALUE_TO_PIECE dict of protocol.py, with the dict.get(value, " ")
default of decode_board_state built in: nibbles 13..15 map to the empty
square character. -/
def VALUE_TO_PIECE (v : Nat) : Char :=
  if v = 1 then 'q'
  else if v = 2 then 'k'
  else if v = 3 then 'b'
  else if v = 4 then 'p'
  else if v = 5 then 'n'
  else if v = 6 then 'R'
  else if v = 7 then 'P'
  else if v = 8 then 'r'
  else if v = 9 then 'B'
  else if v = 10 then 'N'
  else if v = 11 then 'Q'
  else if v = 12 then 'K'
  else ' '

structure PiecePosition where
  x : Nat
  y : Nat
  battery : Nat
deriving DecidableEq

structure BoardState where
  fen_board : String
  raw_data : List Nat
deriving DecidableEq

structure PowerLevel where
  charging : Bool
  percentage : Nat
deriving DecidableEq

/-! Section: Python string helpers.  str.strip().split() tokenizes on
runs of whitespace and drops empty pieces; str(n) prints a Nat in
decimal; "x".join concatenates with a separator. -/

/-- Whitespace tokenizer: acc holds the current token's characters in
reverse.  splitWs below equals Python fen.strip().split(). -/
def wsTokensAux : List Char → List Char → List String
  | [], acc => if acc = [] then [] else [String.mk acc.reverse]
  | c :: cs, acc =>
      if c.isWhitespace then
        if acc = [] then wsTokensAux cs []
        else String.mk acc.reverse :: wsTokensAux cs []
      else wsTokensAux cs (c :: acc)

def splitWs (s : String) : List String :=
  wsTokensAux s.toList []

/-- Decimal rendering of a Nat, Python str(n). -/
def natStr (n : Nat) : String :=
  Nat.repr n

/-- Python "/".join. -/
def joinSlash : List String → String
  | [] => ""
  | [s] => s
  | s :: rest => s ++ "/" ++ joinSlash rest

/-- Space-joined concatenation of tokens (used only to state properties
about normalize_fen's output, which codec.py builds with f-strings). -/
def joinSpace : List String → String
  | [] => ""
  | [s] => s
  | s :: rest => s ++ " " ++ joinSpace rest

/-! Section: the codec (codec.py). -/

def DEFAULT_FEN_TAIL : String := "w KQkq - 0 1"

/-- normalize_fen of codec.py.  The Python code strips then splits on
whitespace; the f-string bodies become explicit concatenations. -/
def normalize_fen (fen : String) : Except String String :=
  match splitWs fen with
  | [] => .error "Empty FEN"
  | [a] => .ok (a ++ " " ++ DEFAULT_FEN_TAIL)
  | [a, b] => .ok (a ++ " " ++ b ++ " KQkq - 0 1")
  | [a, b, c] => .ok (a ++ " " ++ b ++ " " ++ c ++ " - 0 1")
  | [a, b, c, d] => .ok (a ++ " " ++ b ++ " " ++ c ++ " " ++ d ++ " 0 1")
  | [a, b, c, d, e] => .ok (a ++ " " ++ b ++ " " ++ c ++ " " ++ d ++ " " ++ e ++ " 1")
  | [_, _, _, _, _, _] => .ok fen
  | _ => .error "Invalid FEN format"

/-- board_only_fen of codec.py: first whitespace-delimited token. -/
def board_only_fen (fen : String) : Except String String :=
  match splitWs fen with
  | [] => .error "Empty FEN"
  | p :: _ => .ok p

/-- Scanner state of fen_to_board_array's loop. -/
structure FenScan where
  row : Nat
  col : Nat
  board : List (List Char)
deriving DecidableEq

/-- board[row][col] = char on a list-of-lists board. -/
def setSquare (b : List (List Char)) (r c : Nat) (ch : Char) : List (List Char) :=
  b.set r ((b.getD r []).set c ch)

/-- One loop iteration of fen_to_board_array.  Python's char.isdigit and
int(char) become Char.isDigit and the ASCII digit value. -/
def fenStep (st : FenScan) (c : Char) : Except String FenScan :=
  if c.isDigit then .ok { st with col := st.col + (c.toNat - 48) }
  else if c = '/' then .ok { st with row := st.row + 1, col := 0 }
  else if 8 ≤ st.row ∨ 8 ≤ st.col then .error "FEN board out of bounds"
  else .ok { st with board := setSquare st.board st.row st.col c, col := st.col + 1 }

/-- The for-loop of fen_to_board_array with its early raise. -/
def scanFen : List Char → FenScan → Except String FenScan
  | [], st => .ok st
  | c :: cs, st =>
      match fenStep st c with
      | .ok st' => scanFen cs st'
      | .error e => .error e

def emptyBoard : List (List Char) :=
  List.replicate 8 (List.replicate 8 ' ')

/-- fen_to_board_array of codec.py. -/
def fen_to_board_array (fen : String) : Except String (List (List Char)) :=
  match board_only_fen fen with
  | .error e => .error e
  | .ok fenBoard =>
      match scanFen fenBoard.toList ⟨0, 0, emptyBoard⟩ with
      | .error e => .error e
      | .ok st =>
          if st.row = 7 ∧ st.col = 8 then .ok st.board
          else .error "FEN board has incorrect dimensions"

/-- The nested row/column-pair loops of encode_set_move_board_command,
filling the zero-initialized 35-byte buffer after writing the tag and
payload-length bytes. -/
def encodeBoardBytes (board : List (List Char)) : List Nat :=
  (List.range 8).foldl (fun d row =>
    (List.range 4).foldl (fun d colPair =>
      let col := colPair * 2
      let leftValue := PIECE_TO_VALUE ((board.getD row []).getD col ' ')
      let rightValue := PIECE_TO_VALUE ((board.getD row []).getD (col + 1) ' ')
      d.set (row * 4 + (3 - colPair) + 2) (leftValue <<< 4 ||| rightValue)) d)
    (((List.replicate SET_MOVE_BOARD_LENGTH 0).set 0 CommandType_SYNC).set 1 0x21)

/-- encode_set_move_board_command of codec.py. -/
def encode_set_move_board_command (fen : String) (force : Bool) :
    Except String (List Nat) :=
  match fen_to_board_array fen with
  | .error e => .error e
  | .ok board => .ok ((encodeBoardBytes board).set 34 (if force then 0 else 1))

/-- Nibble extraction of decode_board_state: low nibble for an even
column, high nibble for an odd column, from byte (row*8+col)/2 + 2. -/
def decodeNibble (data : List Nat) (row col : Nat) : Nat :=
  let byteIdx := (row * 8 + col) / 2 + 2
  if col % 2 = 0 then data.getD byteIdx 0 &&& 0x0F
  else (data.getD byteIdx 0 >>> 4) &&& 0x0F

/-- One step of decode_board_state's run-length encoding: accumulator is
(rank string so far, pending empty count). -/
def rleStep (acc : String × Nat) (pieceChar : Char) : String × Nat :=
  if pieceChar = ' ' then (acc.1, acc.2 + 1)
  else ((if acc.2 ≠ 0 then acc.1 ++ natStr acc.2 else acc.1) ++ pieceChar.toString, 0)

/-- Run-length encode one rank's 8 square characters (first list entry
becomes the first character of the rank string), with the final
empty-count flush of decode_board_state. -/
def rankFromChars (cs : List Char) : String :=
  let fin := cs.foldl rleStep ("", 0)
  if fin.2 ≠ 0 then fin.1 ++ natStr fin.2 else fin.1

/-- One row of decode_board_state: columns are scanned 7 down to 0, so
the frame's column 7 becomes the leftmost character of the rank. -/
def decodeRank (data : List Nat) (row : Nat) : String :=
  rankFromChars (((List.range 8).reverse).map
    (fun col => VALUE_TO_PIECE (decodeNibble data row col)))

/-- The board-only FEN string decode_board_state assembles. -/
def decodeFenBoard (data : List Nat) : String :=
  joinSlash ((List.range 8).map (fun row => decodeRank data row))

/-- decode_board_state of codec.py. -/
def decode_board_state (data : List Nat) : Option BoardState :=
  if data.length < BOARD_STATE_LENGTH then none
  else if data.getD 0 0 ≠ MessageType_BOARD_STATE ∨ data.getD 1 0 ≠ 0x24 then none
  else some ⟨decodeFenBoard data, data⟩

/-- Canonical board-only FEN of an 8x8 board array: each row run-length
encoded exactly as decode_board_state renders it.  Used to state that an
input FEN is the canonical FEN of the board it parses to. -/
def fenOfBoard (board : List (List Char)) : String :=
  joinSlash (board.map rankFromChars)

/-- decode_battery_level of codec.py. -/
def decode_battery_level (data : List Nat) : Option Nat :=
  if data.length < 3 then none
  else if data.getD 0 0 ≠ MessageType_BATTERY_LEVEL then none
  else some (data.getD 2 0 &&& 0xFF)

/-- decode_power_level of codec.py. -/
def decode_power_level (data : List Nat) : Option PowerLevel :=
  if data.length < 5 then none
  else if data.getD 0 0 ≠ MessageType_COMMAND_RESPONSE ∨
          data.getD 2 0 ≠ CommandSubType_POWER_LEVEL then none
  else some ⟨data.getD 3 0 = 1, data.getD 4 0 &&& 0xFF⟩

/-- UTF-8 decoding of a byte list, modelling Python bytes.decode("utf-8"):
rejects stray continuation bytes, overlong forms, surrogates and
out-of-range code points. -/
def utf8Decode : List Nat → Option (List Char)
  | [] => some []
  | b0 :: rest =>
    if b0 < 0x80 then
      match utf8Decode rest with
      | some cs => some (Char.ofNat b0 :: cs)
      | none => none
    else if 0xC2 ≤ b0 ∧ b0 ≤ 0xDF then
      match rest with
      | b1 :: rest2 =>
        if 0x80 ≤ b1 ∧ b1 ≤ 0xBF then
          match utf8Decode rest2 with
          | some cs => some (Char.ofNat ((b0 - 0xC0) * 0x40 + (b1 - 0x80)) :: cs)
          | none => none
        else none
      | [] => none
    else if 0xE0 ≤ b0 ∧ b0 ≤ 0xEF then
      match rest with
      | b1 :: b2 :: rest3 =>
        if (0x80 ≤ b1 ∧ b1 ≤ 0xBF) ∧ (0x80 ≤ b2 ∧ b2 ≤ 0xBF) then
          let cp := (b0 - 0xE0) * 0x1000 + (b1 - 0x80) * 0x40 + (b2 - 0x80)
          if cp < 0x800 ∨ (0xD800 ≤ cp ∧ cp ≤ 0xDFFF) then none
          else
            match utf8Decode rest3 with
            | some cs => some (Char.ofNat cp :: cs)
            | none => none
        else none
      | _ => none
    else if 0xF0 ≤ b0 ∧ b0 ≤ 0xF4 then
      match rest with
      | b1 :: b2 :: b3 :: rest4 =>
        if (0x80 ≤ b1 ∧ b1 ≤ 0xBF) ∧ (0x80 ≤ b2 ∧ b2 ≤ 0xBF) ∧
            (0x80 ≤ b3 ∧ b3 ≤ 0xBF) then
          let cp := (b0 - 0xF0) * 0x40000 + (b1 - 0x80) * 0x1000 +
            (b2 - 0x80) * 0x40 + (b3 - 0x80)
          if cp < 0x10000 ∨ 0x10FFFF < cp then none
          else
            match utf8Decode rest4 with
            | some cs => some (Char.ofNat cp :: cs)
            | none => none
        else none
      | _ => none
    else none

/-- Python str.strip("\x00"): remove leading and trailing NUL characters. -/
def stripNul (cs : List Char) : List Char :=
  ((cs.dropWhile (· = Char.ofNat 0)).reverse.dropWhile (· = Char.ofNat 0)).reverse

/-- decode_firmware_version of codec.py.  Python's data[1] - 1 can be -1
when data[1] = 0; with Nat subtraction the slice data[3:3+length] is empty
in exactly the same cases, so the result agrees. -/
def decode_firmware_version (data : List Nat) : Option String :=
  if data.length < 4 then none
  else if data.getD 0 0 ≠ MessageType_COMMAND_RESPONSE ∨
          data.getD 2 0 ≠ CommandSubType_FIRMWARE_VERSION then none
  else
    let length := data.getD 1 0 - 1
    if data.length < 3 + length then none
    else
      match utf8Decode ((data.drop 3).take length) with
      | some cs => some (String.mk (stripNul cs))
      | none => none

/-- decode_move_piece_state of codec.py: no header tag or subtype check,
only the minimum-length guard; 34 four-byte slots starting at offset 4. -/
def decode_move_piece_state (data : List Nat) : List PiecePosition :=
  if data.length < MOVE_PIECE_STATE_LENGTH then []
  else (List.range NUM_ROBOTIC_PIECES).map (fun idx =>
    let offset := idx * 4
    ⟨data.getD (offset + 4) 0 &&& 0xFF,
     data.getD (offset + 5) 0 &&& 0xFF,
     data.getD (offset + 6) 0 &&& 0xFF⟩)

/-! Section: the driver (driver.py) and its transport-facing state
(ble.py's ConnectionState).  Notification dispatch is embedded as pure
step functions on an explicit driver state; registered position-change
listeners are fallible functions whose outcome is recorded per
invocation (driver.py catches and logs a listener's exception). -/

structure ConnectionState where
  connected : Bool
  device_name : Option String
  device_address : Option String
  firmware_version : Option String
  battery_level : Option Nat
deriving DecidableEq

structure DriverState where
  currentFen : Option String
  currentPosition : Option (List (List Char))
  firmwareVersion : Option String
  batteryLevel : Option Nat
  isCharging : Option Bool
  piecePositions : List PiecePosition
deriving DecidableEq

/-- The cached fields ChessnutDriver.__init__ starts with: everything
absent and an empty robotic piece-position table. -/
def initialDriverState : DriverState :=
  ⟨none, none, none, none, none, []⟩

/-- ChessnutDriver.get_piece_positions. -/
def get_piece_positions (s : DriverState) : List PiecePosition :=
  s.piecePositions

/-- Modelled from the spec: parse-FEN of the chess-rules collaborator
(the external chess library used by driver.py, not part of src/), which
"fails on illegal structure"; embedded as the codec's own structural
board parse of the FEN's first field. -/
def chessBoardParse (fen : String) : Except String (List (List Char)) :=
  fen_to_board_array fen

/-- A registered position-change listener: may raise (Except.error). -/
def PositionCallback : Type :=
  List (List Char) → Except String Unit

/-- One listener invocation with driver.py's try/except around it: an
exception is captured (logged) as some error, never propagated. -/
def runCallback (cb : PositionCallback) (board : List (List Char)) : Option String :=
  match cb board with
  | .ok _ => none
  | .error e => some e

/-- ChessnutDriver._on_board_state as a step function.  Returns the new
driver state plus one entry per listener invocation (empty when the
listeners were not invoked).  The Except layer carries only an exception
escaping the handler itself (normalize_fen is called outside any try in
driver.py); listener failures are caught inside. -/
def onBoardState (cbs : List PositionCallback) (s : DriverState)
    (data : List Nat) : Except String (DriverState × List (Option String)) :=
  match decode_board_state data with
  | none =>
      match decode_battery_level data with
      | some level => .ok ({ s with batteryLevel := some level }, [])
      | none => .ok (s, [])
  | some msg =>
      match normalize_fen msg.fen_board with
      | .error e => .error e
      | .ok fullFen =>
          let positionChanged := some fullFen ≠ s.currentFen
          let s1 := { s with currentFen := some fullFen }
          match chessBoardParse fullFen with
          | .error _ => .ok (s1, [])
          | .ok board =>
              let s2 := { s1 with currentPosition := some board }
              if positionChanged then
                .ok (s2, cbs.map (fun cb => runCallback cb board))
              else
                .ok (s2, [])

/-- ChessnutDriver._on_command_response: ordered trial decoding of
firmware version, power level, then piece state. -/
def onCommandResponse (s : DriverState) (data : List Nat) : DriverState :=
  match decode_firmware_version data with
  | some fw => { s with firmwareVersion := some fw }
  | none =>
      match decode_power_level data with
      | some power =>
          { s with isCharging := some power.charging,
                   batteryLevel := some power.percentage }
      | none =>
          let pieces := decode_move_piece_state data
          if pieces ≠ [] then { s with piecePositions := pieces } else s

structure DriverStatus where
  connected : Bool
  device_name : Option String
  device_address : Option String
  firmware_version : Option String
  battery_level : Option Nat
  is_charging : Option Bool
  position : Option (List (List Char))
  fen : Option String
deriving DecidableEq

/-- Python's x or y on Optional[int]: None and 0 are falsy, so both fall
through to y. -/
def pyOrOptNat (a b : Option Nat) : Option Nat :=
  match a with
  | some n => if n ≠ 0 then some n else b
  | none => b

/-- Python's x or y on Optional[str]: None and "" are falsy. -/
def pyOrOptStr (a b : Option String) : Option String :=
  match a with
  | some s => if s ≠ "" then some s else b
  | none => b

/-- ChessnutDriver.get_status: projection of driver cache plus the
transport's ConnectionState. -/
def get_status (s : DriverState) (t : ConnectionState) : DriverStatus :=
  ⟨t.connected, t.device_name, t.device_address,
   pyOrOptStr s.firmwareVersion t.firmware_version,
   pyOrOptNat s.batteryLevel t.battery_level,
   s.isCharging, s.currentPosition, s.currentFen⟩

/-- ChessnutDriver.set_position.  The transport send is abstracted by
sendOk (its boolean result); the second component records every frame
written to the transport, so an empty list means no I/O happened. -/
def set_position (connected : Bool) (sendOk : Bool) (fen : String)
    (force : Bool) : Bool × List (List Nat) :=
  if connected = false then (false, [])
  else
    match (match normalize_fen fen with
           | .error e => .error e
           | .ok normalized =>
               match chessBoardParse normalized with
               | .error e => .error e
               | .ok _ => encode_set_move_board_command normalized force :
           Except String (List Nat)) with
    | .error _ => (false, [])
    | .ok command => (sendOk, [command])


/-! Section: helper lemmas about List.getD over set, append, replicate. -/

theorem getD_set_self {α : Type} {l : List α} (i : Nat) {v d : α}
    (h : i < l.length) : (l.set i v).getD i d = v := by
  simp [List.getD_eq_getElem?_getD, List.getElem?_set_self h]

theorem getD_set_other {α : Type} {l : List α} (i j : Nat) {v d : α}
    (h : i ≠ j) : (l.set i v).getD j d = l.getD j d := by
  simp [List.getD_eq_getElem?_getD, List.getElem?_set_ne h]

theorem getD_append_left {α : Type} {l1 l2 : List α} (j : Nat) {d : α}
    (h : j < l1.length) : (l1 ++ l2).getD j d = l1.getD j d := by
  simp [List.getD_eq_getElem?_getD, List.getElem?_append_left h]

/-! Section: byte-level characterization of encodeBoardBytes.  The nested
loops are peeled one row at a time; getD facts follow by induction over
the processed rows, tracking which byte indices each row writes. -/

/-- The packed byte for column-pair colPair of a row: left square's piece
value in the high nibble, right square's in the low nibble. -/
def packByte (board : List (List Char)) (row colPair : Nat) : Nat :=
  PIECE_TO_VALUE ((board.getD row []).getD (colPair * 2) ' ') <<< 4 |||
  PIECE_TO_VALUE ((board.getD row []).getD (colPair * 2 + 1) ' ')

/-- The inner column-pair loop of encodeBoardBytes for one row. -/
def encodeRowStep (b : List (List Char)) (d : List Nat) (row : Nat) : List Nat :=
  (List.range 4).foldl (fun d colPair =>
    let col := colPair * 2
    let leftValue := PIECE_TO_VALUE ((b.getD row []).getD col ' ')
    let rightValue := PIECE_TO_VALUE ((b.getD row []).getD (col + 1) ' ')
    d.set (row * 4 + (3 - colPair) + 2) (leftValue <<< 4 ||| rightValue)) d

/-- The initial 35-byte buffer with tag and payload-length bytes set. -/
def encodeInitBuffer : List Nat :=
  ((List.replicate SET_MOVE_BOARD_LENGTH 0).set 0 CommandType_SYNC).set 1 0x21

theorem encodeBoardBytes_eq_fold (b : List (List Char)) :
    encodeBoardBytes b = (List.range 8).foldl (encodeRowStep b) encodeInitBuffer := rfl

theorem encodeRowStep_eq (b : List (List Char)) (d : List Nat) (row : Nat) :
    encodeRowStep b d row =
      (((d.set (row * 4 + 5) (packByte b row 0)).set (row * 4 + 4) (packByte b row 1)).set
          (row * 4 + 3) (packByte b row 2)).set (row * 4 + 2) (packByte b row 3) := rfl

theorem encodeRowStep_length (b : List (List Char)) (d : List Nat) (row : Nat) :
    (encodeRowStep b d row).length = d.length := by
  rw [encodeRowStep_eq]; simp [List.length_set]

theorem foldRows_length (b : List (List Char)) (rows : List Nat) (d : List Nat) :
    (rows.foldl (encodeRowStep b) d).length = d.length := by
  induction rows generalizing d with
  | nil => rfl
  | cons r rows ih => rw [List.foldl_cons, ih, encodeRowStep_length]

theorem foldRows_getD_untouched (b : List (List Char)) (rows : List Nat)
    (d : List Nat) (j : Nat)
    (h : ∀ r ∈ rows, ¬(r * 4 + 2 ≤ j ∧ j ≤ r * 4 + 5)) :
    (rows.foldl (encodeRowStep b) d).getD j 0 = d.getD j 0 := by
  induction rows generalizing d with
  | nil => rfl
  | cons r rows ih =>
      have hr := h r (List.mem_cons_self r rows)
      rw [List.foldl_cons, ih _ (fun r' hr' => h r' (List.mem_cons_of_mem _ hr')),
        encodeRowStep_eq,
        getD_set_other (r * 4 + 2) j (by omega),
        getD_set_other (r * 4 + 3) j (by omega),
        getD_set_other (r * 4 + 4) j (by omega),
        getD_set_other (r * 4 + 5) j (by omega)]

theorem foldRows_getD_hit (b : List (List Char)) (rows : List Nat)
    (d : List Nat) (r p : Nat) (hp : p < 4) (hmem : r ∈ rows)
    (hnodup : rows.Nodup) (hlen : r * 4 + 5 < d.length) :
    (rows.foldl (encodeRowStep b) d).getD (r * 4 + (5 - p)) 0 = packByte b r p := by
  induction rows generalizing d with
  | nil => cases hmem
  | cons r0 rows ih =>
      rw [List.foldl_cons]
      rcases List.mem_cons.1 hmem with rfl | hmem'
      · have hnotin : r ∉ rows := (List.nodup_cons.1 hnodup).1
        rw [foldRows_getD_untouched b rows _ _ (fun r' hr' hcl => by
          have : r' = r := by omega
          exact hnotin (this ▸ hr'))]
        rw [encodeRowStep_eq]
        interval_cases p
        · rw [show r * 4 + (5 - 0) = r * 4 + 5 from rfl,
            getD_set_other (r * 4 + 2) (r * 4 + 5) (by omega),
            getD_set_other (r * 4 + 3) (r * 4 + 5) (by omega),
            getD_set_other (r * 4 + 4) (r * 4 + 5) (by omega),
            getD_set_self (r * 4 + 5) hlen]
        · rw [show r * 4 + (5 - 1) = r * 4 + 4 from by omega,
            getD_set_other (r * 4 + 2) (r * 4 + 4) (by omega),
            getD_set_other (r * 4 + 3) (r * 4 + 4) (by omega),
            getD_set_self (r * 4 + 4) (by simp only [List.length_set]; omega)]
        · rw [show r * 4 + (5 - 2) = r * 4 + 3 from by omega,
            getD_set_other (r * 4 + 2) (r * 4 + 3) (by omega),
            getD_set_self (r * 4 + 3) (by simp only [List.length_set]; omega)]
        · rw [show r * 4 + (5 - 3) = r * 4 + 2 from by omega,
            getD_set_self (r * 4 + 2) (by simp only [List.length_set]; omega)]
      · exact ih (encodeRowStep b d r0) hmem' (List.nodup_cons.1 hnodup).2
          (by rw [encodeRowStep_length]; exact hlen)

theorem encodeInitBuffer_length : encodeInitBuffer.length = 35 := rfl

theorem encB_length (b : List (List Char)) : (encodeBoardBytes b).length = 35 := by
  rw [encodeBoardBytes_eq_fold, foldRows_length, encodeInitBuffer_length]

theorem encB_byte_pack (b : List (List Char)) (r p : Nat) (hr : r < 8) (hp : p < 4) :
    (encodeBoardBytes b).getD (r * 4 + (5 - p)) 0 = packByte b r p := by
  rw [encodeBoardBytes_eq_fold]
  exact foldRows_getD_hit b (List.range 8) encodeInitBuffer r p hp
    (List.mem_range.2 hr) (List.nodup_range 8) (by rw [encodeInitBuffer_length]; omega)

theorem encB_byte0 (b : List (List Char)) :
    (encodeBoardBytes b).getD 0 0 = CommandType_SYNC := by
  rw [encodeBoardBytes_eq_fold,
    foldRows_getD_untouched b _ _ 0 (fun r hr hcl => by omega)]
  rfl

theorem encB_byte1 (b : List (List Char)) :
    (encodeBoardBytes b).getD 1 0 = 0x21 := by
  rw [encodeBoardBytes_eq_fold,
    foldRows_getD_untouched b _ _ 1 (fun r hr hcl => by omega)]
  rfl

theorem encB_byte34 (b : List (List Char)) :
    (encodeBoardBytes b).getD 34 0 = 0 := by
  rw [encodeBoardBytes_eq_fold,
    foldRows_getD_untouched b _ _ 34 (fun r hr hcl => by
      have : r < 8 := List.mem_range.1 hr
      omega)]
  rfl

/-! Section: piece value and nibble lemmas. -/

theorem PIECE_TO_VALUE_lt (c : Char) : PIECE_TO_VALUE c < 16 := by
  unfold PIECE_TO_VALUE
  split_ifs <;> omega

theorem lor_shift_low : ∀ a < 16, ∀ b < 16, (a <<< 4 ||| b) &&& 15 = b := by
  decide

theorem lor_shift_high : ∀ a < 16, ∀ b < 16, ((a <<< 4 ||| b) >>> 4) &&& 15 = a := by
  decide

def pieceChars : List Char :=
  ['q', 'k', 'b', 'p', 'n', 'R', 'P', 'r', 'B', 'N', 'Q', 'K']

/-- A square character the codec can faithfully carry: one of the 12
piece letters, or the space standing for an empty square. -/
def validSquareChar (c : Char) : Prop :=
  c = ' ' ∨ c ∈ pieceChars

instance (c : Char) : Decidable (validSquareChar c) := by
  unfold validSquareChar; infer_instance

theorem VALUE_TO_PIECE_PIECE_TO_VALUE (c : Char) (h : validSquareChar c) :
    VALUE_TO_PIECE (PIECE_TO_VALUE c) = c := by
  rcases h with rfl | h
  · rfl
  · simp only [pieceChars, List.mem_cons, List.not_mem_nil, or_false] at h
    rcases h with rfl | rfl | rfl | rfl | rfl | rfl | rfl | rfl | rfl | rfl | rfl | rfl <;> rfl

theorem PIECE_TO_VALUE_le12 (c : Char) : PIECE_TO_VALUE c ≤ 12 := by
  unfold PIECE_TO_VALUE
  split_ifs <;> omega

theorem lor_shift_div : ∀ a < 16, ∀ b < 16, (a <<< 4 ||| b) / 16 = a := by
  decide

theorem lor_shift_mod : ∀ a < 16, ∀ b < 16, (a <<< 4 ||| b) % 16 = b := by
  decide

/-! Section: the board-state framing used by the amended round-trip
claim: rewrite the two header bytes of an encoded SYNC frame to the
notification header and pad to the 38-byte notification length. -/

def boardStateFrameOf (enc : List Nat) : List Nat :=
  (enc.set 0 MessageType_BOARD_STATE).set 1 0x24 ++ List.replicate 3 0

theorem frame_set_length (b : List (List Char)) (f34 : Nat) :
    ((((encodeBoardBytes b).set 34 f34).set 0 MessageType_BOARD_STATE).set 1 0x24).length
      = 35 := by
  simp [List.length_set, encB_length]

theorem frame_length (b : List (List Char)) (f34 : Nat) :
    (boardStateFrameOf ((encodeBoardBytes b).set 34 f34)).length = 38 := by
  unfold boardStateFrameOf
  rw [List.length_append, frame_set_length, List.length_replicate]

theorem frame_byte0 (b : List (List Char)) (f34 : Nat) :
    (boardStateFrameOf ((encodeBoardBytes b).set 34 f34)).getD 0 0 =
      MessageType_BOARD_STATE := by
  unfold boardStateFrameOf
  rw [getD_append_left 0 (by rw [frame_set_length]; omega),
    getD_set_other 1 0 (by omega),
    getD_set_self 0 (by simp [List.length_set, encB_length])]

theorem frame_byte1 (b : List (List Char)) (f34 : Nat) :
    (boardStateFrameOf ((encodeBoardBytes b).set 34 f34)).getD 1 0 = 0x24 := by
  unfold boardStateFrameOf
  rw [getD_append_left 1 (by rw [frame_set_length]; omega),
    getD_set_self 1 (by simp [List.length_set, encB_length])]

theorem frame_getD_mid (b : List (List Char)) (f34 : Nat) (j : Nat)
    (h2 : 2 ≤ j) (h33 : j ≤ 33) :
    (boardStateFrameOf ((encodeBoardBytes b).set 34 f34)).getD j 0 =
      (encodeBoardBytes b).getD j 0 := by
  unfold boardStateFrameOf
  rw [getD_append_left j (by rw [frame_set_length]; omega),
    getD_set_other 1 j (by omega), getD_set_other 0 j (by omega),
    getD_set_other 34 j (by omega)]

theorem frame_nibble (b : List (List Char)) (f34 : Nat)
    (hv : ∀ r c : Nat, validSquareChar ((b.getD r []).getD c ' '))
    (r c : Nat) (hr : r < 8) (hc : c < 8) :
    VALUE_TO_PIECE
        (decodeNibble (boardStateFrameOf ((encodeBoardBytes b).set 34 f34)) r c) =
      (b.getD r []).getD (7 - c) ' ' := by
  have hbyte :
      (boardStateFrameOf ((encodeBoardBytes b).set 34 f34)).getD ((r * 8 + c) / 2 + 2) 0 =
        packByte b r (3 - c / 2) := by
    rw [frame_getD_mid b f34 _ (by omega) (by omega),
      show (r * 8 + c) / 2 + 2 = r * 4 + (5 - (3 - c / 2)) from by omega,
      encB_byte_pack b r (3 - c / 2) hr (by omega)]
  by_cases hpar : c % 2 = 0
  · have : decodeNibble (boardStateFrameOf ((encodeBoardBytes b).set 34 f34)) r c =
        packByte b r (3 - c / 2) &&& 0x0F := by
      simp only [decodeNibble]
      rw [if_pos hpar, hbyte]
    rw [this]
    unfold packByte
    rw [lor_shift_low _ (PIECE_TO_VALUE_lt _) _ (PIECE_TO_VALUE_lt _),
      show (3 - c / 2) * 2 + 1 = 7 - c from by omega,
      VALUE_TO_PIECE_PIECE_TO_VALUE _ (hv r (7 - c))]
  · have : decodeNibble (boardStateFrameOf ((encodeBoardBytes b).set 34 f34)) r c =
        (packByte b r (3 - c / 2) >>> 4) &&& 0x0F := by
      simp only [decodeNibble]
      rw [if_neg hpar, hbyte]
    rw [this]
    unfold packByte
    rw [lor_shift_high _ (PIECE_TO_VALUE_lt _) _ (PIECE_TO_VALUE_lt _),
      show (3 - c / 2) * 2 = 7 - c from by omega,
      VALUE_TO_PIECE_PIECE_TO_VALUE _ (hv r (7 - c))]

/-! Section: board shape (8 rows of 8 columns) and its preservation by
the FEN scanner. -/

def boardShape (b : List (List Char)) : Prop :=
  b.length = 8 ∧ ∀ r < 8, (b.getD r []).length = 8

theorem setSquare_shape (b : List (List Char)) (r c : Nat) (ch : Char)
    (h : boardShape b) : boardShape (setSquare b r c ch) := by
  constructor
  · simp [setSquare, List.length_set, h.1]
  · intro r' hr'
    unfold setSquare
    by_cases hrr : r = r'
    · subst hrr
      rw [getD_set_self r (by rw [h.1]; omega)]
      rw [List.length_set]
      exact h.2 r hr'
    · rw [getD_set_other r r' hrr]
      exact h.2 r' hr'

theorem scanFen_shape (cs : List Char) :
    ∀ st st', scanFen cs st = .ok st' → boardShape st.board →
      boardShape st'.board := by
  induction cs with
  | nil =>
      intro st st' h hs
      cases h
      exact hs
  | cons c cs ih =>
      intro st st' h hs
      rcases hstep : fenStep st c with e | st1
      · rw [scanFen, hstep] at h
        cases h
      · rw [scanFen, hstep] at h
        refine ih st1 st' h ?_
        unfold fenStep at hstep
        split_ifs at hstep
        all_goals first
          | (cases hstep; exact hs)
          | (cases hstep; exact setSquare_shape _ _ _ _ hs)

theorem emptyBoard_shape : boardShape emptyBoard := by
  constructor
  · rfl
  · decide

theorem fen_to_board_array_shape (fen : String) (b : List (List Char))
    (h : fen_to_board_array fen = .ok b) : boardShape b := by
  unfold fen_to_board_array at h
  rcases hbo : board_only_fen fen with e | fb
  · simp only [hbo] at h
    cases h
  · simp only [hbo] at h
    rcases hscan : scanFen fb.toList ⟨0, 0, emptyBoard⟩ with e | st
    · simp only [hscan] at h
      cases h
    · simp only [hscan] at h
      split_ifs at h
      cases h
      exact scanFen_shape _ _ _ hscan emptyBoard_shape

theorem getD_mem_or_default {α : Type} (l : List α) (i : Nat) (d : α) :
    l.getD i d ∈ l ∨ l.getD i d = d := by
  by_cases h : i < l.length
  · left
    rw [List.getD_eq_getElem l d h]
    exact List.getElem_mem h
  · right
    rw [List.getD_eq_getElem?_getD, List.getElem?_eq_none (by omega)]
    rfl

theorem valid_pointwise (b : List (List Char))
    (helem : ∀ row ∈ b, ∀ ch ∈ row, validSquareChar ch) :
    ∀ r c : Nat, validSquareChar ((b.getD r []).getD c ' ') := by
  intro r c
  rcases getD_mem_or_default b r [] with hrow | hrow
  · rcases getD_mem_or_default (b.getD r []) c ' ' with hch | hch
    · exact helem _ hrow _ hch
    · rw [hch]
      left
      rfl
  · rw [hrow]
    left
    rfl

theorem eq_explicit_of_length8 {α : Type} (l : List α) (d : α) (h : l.length = 8) :
    l = [l.getD 0 d, l.getD 1 d, l.getD 2 d, l.getD 3 d,
         l.getD 4 d, l.getD 5 d, l.getD 6 d, l.getD 7 d] := by
  rcases l with _ | ⟨a0, l⟩
  · simp at h
  rcases l with _ | ⟨a1, l⟩
  · simp at h
  rcases l with _ | ⟨a2, l⟩
  · simp at h
  rcases l with _ | ⟨a3, l⟩
  · simp at h
  rcases l with _ | ⟨a4, l⟩
  · simp at h
  rcases l with _ | ⟨a5, l⟩
  · simp at h
  rcases l with _ | ⟨a6, l⟩
  · simp at h
  rcases l with _ | ⟨a7, l⟩
  · simp at h
  rcases l with _ | ⟨a8, l⟩
  · rfl
  · simp only [List.length_cons] at h
    omega

theorem decodeRank_frame (b : List (List Char)) (f34 : Nat)
    (hshape : boardShape b)
    (hv : ∀ r c : Nat, validSquareChar ((b.getD r []).getD c ' '))
    (r : Nat) (hr : r < 8) :
    decodeRank (boardStateFrameOf ((encodeBoardBytes b).set 34 f34)) r =
      rankFromChars (b.getD r []) := by
  unfold decodeRank
  rw [show (List.range 8).reverse = [7, 6, 5, 4, 3, 2, 1, 0] from rfl]
  simp only [List.map_cons, List.map_nil]
  rw [frame_nibble b f34 hv r 7 hr (by omega), frame_nibble b f34 hv r 6 hr (by omega),
    frame_nibble b f34 hv r 5 hr (by omega), frame_nibble b f34 hv r 4 hr (by omega),
    frame_nibble b f34 hv r 3 hr (by omega), frame_nibble b f34 hv r 2 hr (by omega),
    frame_nibble b f34 hv r 1 hr (by omega), frame_nibble b f34 hv r 0 hr (by omega)]
  exact congrArg rankFromChars (eq_explicit_of_length8 (b.getD r []) ' ' (hshape.2 r hr)).symm

theorem decodeFenBoard_frame (b : List (List Char)) (f34 : Nat)
    (hshape : boardShape b)
    (hv : ∀ r c : Nat, validSquareChar ((b.getD r []).getD c ' ')) :
    decodeFenBoard (boardStateFrameOf ((encodeBoardBytes b).set 34 f34)) =
      fenOfBoard b := by
  unfold decodeFenBoard fenOfBoard
  rw [show List.range 8 = [0, 1, 2, 3, 4, 5, 6, 7] from rfl]
  simp only [List.map_cons, List.map_nil]
  rw [decodeRank_frame b f34 hshape hv 0 (by omega),
    decodeRank_frame b f34 hshape hv 1 (by omega),
    decodeRank_frame b f34 hshape hv 2 (by omega),
    decodeRank_frame b f34 hshape hv 3 (by omega),
    decodeRank_frame b f34 hshape hv 4 (by omega),
    decodeRank_frame b f34 hshape hv 5 (by omega),
    decodeRank_frame b f34 hshape hv 6 (by omega),
    decodeRank_frame b f34 hshape hv 7 (by omega)]
  conv_rhs => rw [eq_explicit_of_length8 b [] hshape.1]
  rfl

/-! Section: concrete fixtures (the standard chess starting position). -/

def startFen : String :=
  "rnbqkbnr/pppppppp/8/8/8/8/PPPPPPPP/RNBQKBNR w KQkq - 0 1"

def startBoard : List (List Char) :=
  [['r', 'n', 'b', 'q', 'k', 'b', 'n', 'r'],
   ['p', 'p', 'p', 'p', 'p', 'p', 'p', 'p'],
   [' ', ' ', ' ', ' ', ' ', ' ', ' ', ' '],
   [' ', ' ', ' ', ' ', ' ', ' ', ' ', ' '],
   [' ', ' ', ' ', ' ', ' ', ' ', ' ', ' '],
   [' ', ' ', ' ', ' ', ' ', ' ', ' ', ' '],
   ['P', 'P', 'P', 'P', 'P', 'P', 'P', 'P'],
   ['R', 'N', 'B', 'Q', 'K', 'B', 'N', 'R']]

def startSyncFrame : List Nat :=
  [0x42, 0x21, 0x58, 0x23, 0x31, 0x85, 0x44, 0x44, 0x44, 0x44,
   0, 0, 0, 0, 0, 0, 0, 0, 0, 0, 0, 0, 0, 0, 0, 0,
   0x77, 0x77, 0x77, 0x77, 0xA6, 0xC9, 0x9B, 0x6A, 0]

/-- C1 counterexample: at the starting position, encode_set_move_board_command
followed directly by decode_board_state does not return the board-only FEN:
the encoded frame is 35 bytes with the SYNC header (0x42, 0x21), while
decode_board_state demands at least 38 bytes with header (0x01, 0x24), so
the decode returns absent. -/
theorem c1_counterexample :
    encode_set_move_board_command startFen true = .ok startSyncFrame ∧
      decode_board_state startSyncFrame = none :=
  ⟨by rfl, by rfl⟩

/-- C1 (amended): for every FEN whose board field parses to an 8x8 board of
valid square characters and is that board's canonical run-length-encoded
form (as every legal position's FEN is), encoding with
encode_set_move_board_command and then decoding the payload after
substituting the board-state notification header (tag 0x01, length byte
0x24, padded to 38 bytes) yields the same board-only FEN string; the
direct composition instead returns absent because the SYNC command header
differs from the notification header (see the counterexample). -/
theorem c1_roundtrip_amended (fen sB : String) (b : List (List Char))
    (force : Bool)
    (hparse : fen_to_board_array fen = .ok b)
    (hvalid : ∀ row ∈ b, ∀ ch ∈ row, validSquareChar ch)
    (hcanon : fenOfBoard b = sB) :
    ∃ enc, encode_set_move_board_command fen force = .ok enc ∧
      (decode_board_state (boardStateFrameOf enc)).map BoardState.fen_board =
        some sB := by
  refine ⟨(encodeBoardBytes b).set 34 (if force then 0 else 1), ?_, ?_⟩
  · unfold encode_set_move_board_command
    rw [hparse]
  · have hshape := fen_to_board_array_shape fen b hparse
    have hv := valid_pointwise b hvalid
    unfold decode_board_state
    rw [if_neg (by simp [frame_length, BOARD_STATE_LENGTH]),
      if_neg (by push_neg; exact ⟨frame_byte0 b _, frame_byte1 b _⟩)]
    show some (decodeFenBoard (boardStateFrameOf _)) = some sB
    rw [decodeFenBoard_frame b _ hshape hv, hcanon]

/-- C1 witness: the amended round-trip at the starting position. -/
theorem c1_roundtrip_amended_witness :
    fen_to_board_array startFen = .ok startBoard ∧
      fenOfBoard startBoard = "rnbqkbnr/pppppppp/8/8/8/8/PPPPPPPP/RNBQKBNR" ∧
      ∃ enc, encode_set_move_board_command startFen true = .ok enc ∧
        (decode_board_state (boardStateFrameOf enc)).map BoardState.fen_board =
          some "rnbqkbnr/pppppppp/8/8/8/8/PPPPPPPP/RNBQKBNR" :=
  ⟨by rfl, by rfl,
    c1_roundtrip_amended startFen _ startBoard true (by rfl) (by decide) (by rfl)⟩

/-- C2: for every FEN that parses into an 8x8 board, the encoded frame is
35 bytes; byte 0 is the SYNC tag and byte 1 the fixed length marker; the
byte for column-pair p of row r sits at index r*4 + (3-p) + 2 with the
left square's piece code (0..12) in the high nibble (value / 16) and the
right square's code in the low nibble (value % 16); byte 34 is 0 when
force is true and 1 when force is false; and every byte other than byte
34 is independent of force, hence a function of the FEN alone. -/
theorem c2_encode_layout (fen : String) (b : List (List Char)) (force : Bool)
    (hparse : fen_to_board_array fen = .ok b) :
    ∃ enc, encode_set_move_board_command fen force = .ok enc ∧
      enc.length = 35 ∧
      enc.getD 0 0 = CommandType_SYNC ∧
      enc.getD 1 0 = 0x21 ∧
      (∀ r < 8, ∀ p < 4,
        enc.getD (r * 4 + (3 - p) + 2) 0 / 16 =
            PIECE_TO_VALUE ((b.getD r []).getD (p * 2) ' ') ∧
          enc.getD (r * 4 + (3 - p) + 2) 0 % 16 =
            PIECE_TO_VALUE ((b.getD r []).getD (p * 2 + 1) ' ') ∧
          PIECE_TO_VALUE ((b.getD r []).getD (p * 2) ' ') ≤ 12 ∧
          PIECE_TO_VALUE ((b.getD r []).getD (p * 2 + 1) ' ') ≤ 12) ∧
      enc.getD 34 0 = (if force then 0 else 1) ∧
      (∀ force' : Bool, ∀ enc',
        encode_set_move_board_command fen force' = .ok enc' →
        ∀ i, i ≠ 34 → enc'.getD i 0 = enc.getD i 0) := by
  refine ⟨(encodeBoardBytes b).set 34 (if force then 0 else 1),
    ?_, ?_, ?_, ?_, ?_, ?_, ?_⟩
  · unfold encode_set_move_board_command
    rw [hparse]
  · rw [List.length_set, encB_length]
  · rw [getD_set_other 34 0 (by omega), encB_byte0]
  · rw [getD_set_other 34 1 (by omega), encB_byte1]
  · intro r hr p hp
    rw [getD_set_other 34 (r * 4 + (3 - p) + 2) (by omega),
      show r * 4 + (3 - p) + 2 = r * 4 + (5 - p) from by omega,
      encB_byte_pack b r p hr hp]
    unfold packByte
    exact ⟨lor_shift_div _ (PIECE_TO_VALUE_lt _) _ (PIECE_TO_VALUE_lt _),
      lor_shift_mod _ (PIECE_TO_VALUE_lt _) _ (PIECE_TO_VALUE_lt _),
      PIECE_TO_VALUE_le12 _, PIECE_TO_VALUE_le12 _⟩
  · rw [getD_set_self 34 (by rw [encB_length]; omega)]
  · intro force' enc' henc' i hi
    unfold encode_set_move_board_command at henc'
    rw [hparse] at henc'
    rw [← Except.ok.inj henc']
    rw [getD_set_other 34 i (Ne.symm hi), getD_set_other 34 i (Ne.symm hi)]

/-- C2 witness: the layout at the starting position with force = false. -/
theorem c2_encode_layout_witness :
    fen_to_board_array startFen = .ok startBoard ∧
      ∃ enc, encode_set_move_board_command startFen false = .ok enc ∧
        enc.length = 35 ∧
        enc.getD 0 0 = CommandType_SYNC ∧
        enc.getD 1 0 = 0x21 ∧
        (∀ r < 8, ∀ p < 4,
          enc.getD (r * 4 + (3 - p) + 2) 0 / 16 =
              PIECE_TO_VALUE ((startBoard.getD r []).getD (p * 2) ' ') ∧
            enc.getD (r * 4 + (3 - p) + 2) 0 % 16 =
              PIECE_TO_VALUE ((startBoard.getD r []).getD (p * 2 + 1) ' ') ∧
            PIECE_TO_VALUE ((startBoard.getD r []).getD (p * 2) ' ') ≤ 12 ∧
            PIECE_TO_VALUE ((startBoard.getD r []).getD (p * 2 + 1) ' ') ≤ 12) ∧
        enc.getD 34 0 = (if false then 0 else 1) ∧
        (∀ force' : Bool, ∀ enc',
          encode_set_move_board_command startFen force' = .ok enc' →
          ∀ i, i ≠ 34 → enc'.getD i 0 = enc.getD i 0) :=
  ⟨by rfl, c2_encode_layout startFen startBoard false (by rfl)⟩

/-- C4 counterexample: decode_move_piece_state does not validate any
header tag or subtype: a 139-byte frame of zeros, whose first byte is not
the COMMAND_RESPONSE tag and whose third byte is not the
MOVE_PIECE_STATE subtype, still decodes to a full 34-entry table rather
than an absent value. -/
theorem c4_counterexample :
    (List.replicate 139 0).getD 0 0 ≠ MessageType_COMMAND_RESPONSE ∧
      (List.replicate 139 0).getD 2 0 ≠ CommandSubType_MOVE_PIECE_STATE ∧
      decode_move_piece_state (List.replicate 139 0) ≠ [] ∧
      (decode_move_piece_state (List.replicate 139 0)).length = 34 := by
  refine ⟨by decide, by decide, ?_, by rfl⟩
  intro h
  have : (decode_move_piece_state (List.replicate 139 0)).length = 34 := by rfl
  rw [h] at this
  cases this

/-- C4 (amended): decode_board_state, decode_battery_level,
decode_power_level and decode_firmware_version each validate their own
header tag/subtype and minimum length and return absent (rather than
raising) on any mismatch — decode_board_state in particular returns
absent for every frame shorter than 38 bytes or with a mismatched header
tag or length byte; decode_move_piece_state, however, validates only its
minimum length of 139 bytes (returning the absent value, an empty list,
for shorter frames) and performs no header tag or subtype check: every
frame of at least 139 bytes decodes to a 34-entry table. -/
theorem c4_decoders_guard_amended (data : List Nat) :
    (data.length < BOARD_STATE_LENGTH → decode_board_state data = none) ∧
      (data.getD 0 0 ≠ MessageType_BOARD_STATE ∨ data.getD 1 0 ≠ 0x24 →
        decode_board_state data = none) ∧
      (data.length < 3 → decode_battery_level data = none) ∧
      (data.getD 0 0 ≠ MessageType_BATTERY_LEVEL → decode_battery_level data = none) ∧
      (data.length < 5 → decode_power_level data = none) ∧
      (data.getD 0 0 ≠ MessageType_COMMAND_RESPONSE ∨
          data.getD 2 0 ≠ CommandSubType_POWER_LEVEL →
        decode_power_level data = none) ∧
      (data.length < 4 → decode_firmware_version data = none) ∧
      (data.getD 0 0 ≠ MessageType_COMMAND_RESPONSE ∨
          data.getD 2 0 ≠ CommandSubType_FIRMWARE_VERSION →
        decode_firmware_version data = none) ∧
      (data.length < MOVE_PIECE_STATE_LENGTH → decode_move_piece_state data = []) ∧
      (MOVE_PIECE_STATE_LENGTH ≤ data.length →
        (decode_move_piece_state data).length = NUM_ROBOTIC_PIECES) := by
  refine ⟨?_, ?_, ?_, ?_, ?_, ?_, ?_, ?_, ?_, ?_⟩
  · intro h
    unfold decode_board_state
    rw [if_pos h]
  · intro h
    unfold decode_board_state
    by_cases h1 : data.length < BOARD_STATE_LENGTH
    · rw [if_pos h1]
    · rw [if_neg h1, if_pos h]
  · intro h
    unfold decode_battery_level
    rw [if_pos h]
  · intro h
    unfold decode_battery_level
    by_cases h1 : data.length < 3
    · rw [if_pos h1]
    · rw [if_neg h1, if_pos h]
  · intro h
    unfold decode_power_level
    rw [if_pos h]
  · intro h
    unfold decode_power_level
    by_cases h1 : data.length < 5
    · rw [if_pos h1]
    · rw [if_neg h1, if_pos h]
  · intro h
    unfold decode_firmware_version
    rw [if_pos h]
  · intro h
    unfold decode_firmware_version
    by_cases h1 : data.length < 4
    · rw [if_pos h1]
    · rw [if_neg h1, if_pos h]
  · intro h
    unfold decode_move_piece_state
    rw [if_pos h]
  · intro h
    unfold decode_move_piece_state
    rw [if_neg (by omega), List.length_map, List.length_range]

/-- C4 witness: each guard at a concrete failing frame. -/
theorem c4_decoders_guard_amended_witness :
    decode_board_state [1, 0x24, 3] = none ∧
      decode_board_state (0x02 :: List.replicate 37 0) = none ∧
      decode_battery_level [] = none ∧
      decode_battery_level [0x29, 0, 50] = none ∧
      decode_power_level [0x41, 2, 0x0C] = none ∧
      decode_power_level [0x41, 2, 0x0B, 1, 80] = none ∧
      decode_firmware_version [0x41, 1] = none ∧
      decode_firmware_version [0x41, 1, 0x0C, 65] = none ∧
      decode_move_piece_state [0x41, 0, 0x0B] = [] ∧
      (decode_move_piece_state (List.replicate 139 7)).length = 34 :=
  ⟨(c4_decoders_guard_amended [1, 0x24, 3]).1 (by decide),
   (c4_decoders_guard_amended (0x02 :: List.replicate 37 0)).2.1 (by decide),
   (c4_decoders_guard_amended []).2.2.1 (by decide),
   (c4_decoders_guard_amended [0x29, 0, 50]).2.2.2.1 (by decide),
   (c4_decoders_guard_amended [0x41, 2, 0x0C]).2.2.2.2.1 (by decide),
   (c4_decoders_guard_amended [0x41, 2, 0x0B, 1, 80]).2.2.2.2.2.1 (by decide),
   (c4_decoders_guard_amended [0x41, 1]).2.2.2.2.2.2.1 (by decide),
   (c4_decoders_guard_amended [0x41, 1, 0x0C, 65]).2.2.2.2.2.2.2.1 (by decide),
   (c4_decoders_guard_amended [0x41, 0, 0x0B]).2.2.2.2.2.2.2.2.1 (by decide),
   (c4_decoders_guard_amended (List.replicate 139 7)).2.2.2.2.2.2.2.2.2 (by decide)⟩

theorem decode_move_piece_state_length_of_ne_nil (data : List Nat)
    (h : decode_move_piece_state data ≠ []) :
    (decode_move_piece_state data).length = NUM_ROBOTIC_PIECES := by
  unfold decode_move_piece_state at h ⊢
  by_cases hl : data.length < MOVE_PIECE_STATE_LENGTH
  · rw [if_pos hl] at h
    exact absurd rfl h
  · rw [if_neg hl, List.length_map, List.length_range]

/-- C5 counterexample: immediately after construction the driver's
robotic piece-position table observable through get_piece_positions is
empty — it has 0 entries, not 34, so the table does not have exactly 34
entries at every point of the driver's lifetime. -/
theorem c5_counterexample :
    get_piece_positions initialDriverState = [] ∧
      (get_piece_positions initialDriverState).length ≠ 34 :=
  ⟨rfl, by decide⟩

/-- C5 (amended): the piece-position table starts empty; every
command-response dispatch step either leaves it untouched or replaces the
whole table in one assignment with the freshly decoded table, which then
has exactly 34 entries — so the table is never partially updated, and
from the first successful piece-state decode onwards it always has
exactly 34 entries. -/
theorem c5_piece_table_amended :
    get_piece_positions initialDriverState = [] ∧
      ∀ (s : DriverState) (data : List Nat),
        get_piece_positions (onCommandResponse s data) = get_piece_positions s ∨
          (get_piece_positions (onCommandResponse s data) =
              decode_move_piece_state data ∧
            (get_piece_positions (onCommandResponse s data)).length =
              NUM_ROBOTIC_PIECES) := by
  refine ⟨rfl, ?_⟩
  intro s data
  unfold onCommandResponse get_piece_positions
  rcases decode_firmware_version data with _ | fw
  · rcases decode_power_level data with _ | power
    · by_cases hp : decode_move_piece_state data ≠ []
      · rw [if_pos hp]
        exact Or.inr ⟨rfl, decode_move_piece_state_length_of_ne_nil data hp⟩
      · rw [if_neg hp]
        exact Or.inl rfl
    · exact Or.inl rfl
  · exact Or.inl rfl

/-- C6: normalize_fen splits its input on whitespace; with 0 fields it
fails; with 1 to 5 fields it returns the fields joined by single spaces
followed by the missing tail defaults drawn in order from
"w KQkq - 0 1" (1 field appends all five defaults, 5 fields append only
"1"); a 6-field input is returned unchanged; any larger field count
fails. -/
theorem c6_normalize_fen_fields (s : String) :
    (splitWs s = [] → normalize_fen s = .error "Empty FEN") ∧
      (1 ≤ (splitWs s).length → (splitWs s).length ≤ 5 →
        normalize_fen s =
          .ok (joinSpace (splitWs s ++
            List.drop ((splitWs s).length - 1) ["w", "KQkq", "-", "0", "1"]))) ∧
      ((splitWs s).length = 6 → normalize_fen s = .ok s) ∧
      (7 ≤ (splitWs s).length → normalize_fen s = .error "Invalid FEN format") := by
  refine ⟨?_, ?_, ?_, ?_⟩
  · intro h
    unfold normalize_fen
    rw [h]
  · intro h1 h5
    unfold normalize_fen
    rcases hs : splitWs s with _ | ⟨a, l⟩
    · rw [hs] at h1
      simp at h1
    rcases l with _ | ⟨b, l⟩
    · refine congrArg Except.ok ?_
      simp only [joinSpace, DEFAULT_FEN_TAIL, String.append_assoc,
        List.cons_append, List.nil_append, List.length_cons, List.length_nil,
        List.drop]
      congr 1
    rcases l with _ | ⟨c, l⟩
    · refine congrArg Except.ok ?_
      simp only [joinSpace, String.append_assoc, List.cons_append,
        List.nil_append, List.length_cons, List.length_nil, List.drop]
      congr 2
    rcases l with _ | ⟨d, l⟩
    · refine congrArg Except.ok ?_
      simp only [joinSpace, String.append_assoc, List.cons_append,
        List.nil_append, List.length_cons, List.length_nil, List.drop]
      congr 3
    rcases l with _ | ⟨e, l⟩
    · refine congrArg Except.ok ?_
      simp only [joinSpace, String.append_assoc, List.cons_append,
        List.nil_append, List.length_cons, List.length_nil, List.drop]
      congr 4
    rcases l with _ | ⟨f, l⟩
    · refine congrArg Except.ok ?_
      simp only [joinSpace, String.append_assoc, List.cons_append,
        List.nil_append, List.length_cons, List.length_nil, List.drop]
      congr 5
    · rw [hs] at h5
      simp only [List.length_cons, List.length_nil] at h5
      omega
  · intro h
    unfold normalize_fen
    rcases hs : splitWs s with _ | ⟨a, l⟩
    · rw [hs] at h
      simp at h
    rcases l with _ | ⟨b, l⟩
    · rw [hs] at h
      simp at h
    rcases l with _ | ⟨c, l⟩
    · rw [hs] at h
      simp at h
    rcases l with _ | ⟨d, l⟩
    · rw [hs] at h
      simp at h
    rcases l with _ | ⟨e, l⟩
    · rw [hs] at h
      simp at h
    rcases l with _ | ⟨f, l⟩
    · rw [hs] at h
      simp at h
    rcases l with _ | ⟨g, l⟩
    · rfl
    · rw [hs] at h
      simp only [List.length_cons, List.length_nil] at h
      omega
  · intro h
    unfold normalize_fen
    rcases hs : splitWs s with _ | ⟨a, l⟩
    · rw [hs] at h
      simp at h
    rcases l with _ | ⟨b, l⟩
    · rw [hs] at h
      simp only [List.length_cons, List.length_nil] at h
      omega
    rcases l with _ | ⟨c, l⟩
    · rw [hs] at h
      simp only [List.length_cons, List.length_nil] at h
      omega
    rcases l with _ | ⟨d, l⟩
    · rw [hs] at h
      simp only [List.length_cons, List.length_nil] at h
      omega
    rcases l with _ | ⟨e, l⟩
    · rw [hs] at h
      simp only [List.length_cons, List.length_nil] at h
      omega
    rcases l with _ | ⟨f, l⟩
    · rw [hs] at h
      simp only [List.length_cons, List.length_nil] at h
      omega
    rcases l with _ | ⟨g, l⟩
    · rw [hs] at h
      simp only [List.length_cons, List.length_nil] at h
      omega
    · rfl

/-- C6 witness: the spec's scenario — a board-only FEN gains the full
default tail — plus the failing empty input. -/
theorem c6_normalize_fen_fields_witness :
    normalize_fen "rnbqkbnr/pppppppp/8/8/8/8/PPPPPPPP/RNBQKBNR" =
        .ok "rnbqkbnr/pppppppp/8/8/8/8/PPPPPPPP/RNBQKBNR w KQkq - 0 1" ∧
      normalize_fen "   " = .error "Empty FEN" :=
  ⟨by
    have h := (c6_normalize_fen_fields "rnbqkbnr/pppppppp/8/8/8/8/PPPPPPPP/RNBQKBNR").2.1
      (by decide) (by decide)
    rw [h]
    rfl,
   (c6_normalize_fen_fields "   ").1 (by decide)⟩

/-- C10: get_status applies Python or-falsiness to the cached telemetry:
the driver-cached battery level is reported only when it is present and
non-zero; a cached 0 (and a cached None) falls back to the transport
ConnectionState's value, so a cached reading of 0 percent is never itself
reported; likewise a cached empty firmware string falls back to the
transport's firmware version. -/
theorem c10_status_battery_fallback (s : DriverState) (t : ConnectionState) :
    (s.batteryLevel = some 0 →
        (get_status s t).battery_level = t.battery_level) ∧
      (s.batteryLevel = none →
        (get_status s t).battery_level = t.battery_level) ∧
      (∀ n : Nat, n ≠ 0 → s.batteryLevel = some n →
        (get_status s t).battery_level = some n) ∧
      (s.firmwareVersion = some "" →
        (get_status s t).firmware_version = t.firmware_version) ∧
      (s.firmwareVersion = none →
        (get_status s t).firmware_version = t.firmware_version) := by
  refine ⟨?_, ?_, ?_, ?_, ?_⟩
  · intro h
    unfold get_status pyOrOptNat
    rw [h]
    rfl
  · intro h
    unfold get_status pyOrOptNat
    rw [h]
  · intro n hn h
    unfold get_status pyOrOptNat
    rw [h]
    simp [hn]
  · intro h
    unfold get_status pyOrOptStr
    rw [h]
    rfl
  · intro h
    unfold get_status pyOrOptStr
    rw [h]

/-- C10 witness: a driver cache holding battery 0 and empty firmware is
overridden by the transport's values. -/
theorem c10_status_battery_fallback_witness :
    (get_status ⟨none, none, some "", some 0, none, []⟩
        ⟨true, none, none, some "1.2.3", some 55⟩).battery_level = some 55 ∧
      (get_status ⟨none, none, some "", some 0, none, []⟩
          ⟨true, none, none, some "1.2.3", some 55⟩).firmware_version = some "1.2.3" :=
  ⟨(c10_status_battery_fallback _ _).1 rfl,
   (c10_status_battery_fallback _ _).2.2.2.1 rfl⟩

/-- C7: set_position returns false and writes nothing to the transport
when the driver is not connected, and likewise when FEN
normalization/validation fails — the rejection happens before any frame
is handed to the transport, as witnessed by the empty send trace. -/
theorem c7_set_position_guards (connected sendOk : Bool) (fen : String)
    (force : Bool)
    (h : connected = false ∨
      ∃ e, (match normalize_fen fen with
            | .error e => .error e
            | .ok n => chessBoardParse n : Except String (List (List Char))) =
          .error e) :
    set_position connected sendOk fen force = (false, []) := by
  rcases h with hc | ⟨e, he⟩
  · unfold set_position
    rw [if_pos hc]
  · unfold set_position
    by_cases hc : connected = false
    · rw [if_pos hc]
    · rw [if_neg hc]
      rcases hn : normalize_fen fen with en | n
      · simp only [hn]
      · simp only [hn] at he ⊢
        rcases hp : chessBoardParse n with ep | board
        · simp only [hp]
        · simp only [hp] at he
          cases he

/-- C7 witness: not connected, and an unparseable FEN while connected. -/
theorem c7_set_position_guards_witness :
    set_position false true startFen true = (false, []) ∧
      set_position true true "" true = (false, []) :=
  ⟨c7_set_position_guards false true startFen true (Or.inl rfl),
   c7_set_position_guards true true "" true (Or.inr ⟨"Empty FEN", by rfl⟩)⟩

/-- C9: during position-change delivery every listener outcome is
captured per invocation and never propagated: the resulting driver state
is identical to the state produced with no listeners registered at all
(so a raising listener can neither corrupt the cached position nor abort
the dispatch), and whenever delivery happens the result records exactly
one isolated invocation outcome per registered listener, each computed
independently of the others' failures. -/
theorem c9_listener_isolation (cbs : List PositionCallback) (s : DriverState)
    (data : List Nat) :
    (onBoardState cbs s data).map Prod.fst =
        (onBoardState [] s data).map Prod.fst ∧
      (∀ st rs, onBoardState cbs s data = .ok (st, rs) →
        rs = [] ∨ ∃ board, st.currentPosition = some board ∧
          rs = cbs.map (fun cb => runCallback cb board)) := by
  unfold onBoardState
  rcases hd : decode_board_state data with _ | msg <;> simp only [hd]
  · rcases hb : decode_battery_level data with _ | level <;> simp only [hb]
    · refine ⟨trivial, fun st rs h => ?_⟩
      cases h
      exact Or.inl rfl
    · refine ⟨trivial, fun st rs h => ?_⟩
      cases h
      exact Or.inl rfl
  · rcases hn : normalize_fen msg.fen_board with e | full <;> simp only [hn]
    · refine ⟨trivial, fun st rs h => ?_⟩
      cases h
    · rcases hp : chessBoardParse full with e2 | board <;> simp only [hp]
      · refine ⟨trivial, fun st rs h => ?_⟩
        cases h
        exact Or.inl rfl
      · by_cases hch : some full ≠ s.currentFen
        · refine ⟨?_, fun st rs h => ?_⟩
          · simp only [if_pos hch]
            rfl
          · simp only [if_pos hch] at h
            cases h
            exact Or.inr ⟨board, rfl, rfl⟩
        · refine ⟨?_, fun st rs h => ?_⟩
          · simp only [if_neg hch]
          · simp only [if_neg hch] at h
            cases h
            exact Or.inl rfl

def cbBoom : PositionCallback := fun _ => .error "boom"

def frame0 : List Nat := 1 :: 0x24 :: List.replicate 36 0

/-- C9 witness: a raising listener on an all-empty board-state frame is
recorded as an isolated failure while the cached state matches the
listener-free dispatch. -/
theorem c9_listener_isolation_witness :
    (onBoardState [cbBoom] initialDriverState frame0).map Prod.fst =
        (onBoardState [] initialDriverState frame0).map Prod.fst ∧
      ([some "boom"] = ([] : List (Option String)) ∨
        ∃ board,
          (⟨some "8/8/8/8/8/8/8/8 w KQkq - 0 1", some emptyBoard,
              none, none, none, []⟩ : DriverState).currentPosition = some board ∧
            [some "boom"] = [cbBoom].map (fun cb => runCallback cb board)) :=
  ⟨(c9_listener_isolation [cbBoom] initialDriverState frame0).1,
   (c9_listener_isolation [cbBoom] initialDriverState frame0).2
     ⟨some "8/8/8/8/8/8/8/8 w KQkq - 0 1", some emptyBoard, none, none, none, []⟩
     [some "boom"] (by rfl)⟩

/-! Section: structure of the run-length-encoded rank strings produced by
decode_board_state, and reparsability of its output.  These lemmas back
the driver-dispatch claims: every decoded board-only FEN normalizes and
parses back into an 8x8 board. -/

/-- How many board columns a rank character stands for: a digit d stands
for d empty columns, any other character for one occupied column. -/
def colsOfChars (l : List Char) : Nat :=
  (l.map (fun c => if c.isDigit then c.toNat - 48 else 1)).sum

/-- A character that can appear in one rank of a decoded board-only FEN:
a digit 1..8 or a piece letter. -/
def goodRankChar (c : Char) : Prop :=
  (c.isDigit = true ∧ 1 ≤ c.toNat - 48 ∧ c.toNat - 48 ≤ 8) ∨ c ∈ pieceChars

theorem colsOfChars_cons (c : Char) (l : List Char) :
    colsOfChars (c :: l) =
      (if c.isDigit then c.toNat - 48 else 1) + colsOfChars l := by
  simp [colsOfChars]

theorem pieceChar_not_digit (c : Char) (h : c ∈ pieceChars) :
    c.isDigit = false := by
  simp only [pieceChars, List.mem_cons, List.not_mem_nil, or_false] at h
  rcases h with rfl | rfl | rfl | rfl | rfl | rfl | rfl | rfl | rfl | rfl | rfl | rfl <;> decide

theorem pieceChar_not_slash (c : Char) (h : c ∈ pieceChars) : c ≠ '/' := by
  simp only [pieceChars, List.mem_cons, List.not_mem_nil, or_false] at h
  rcases h with rfl | rfl | rfl | rfl | rfl | rfl | rfl | rfl | rfl | rfl | rfl | rfl <;> decide

theorem pieceChar_not_ws (c : Char) (h : c ∈ pieceChars) :
    c.isWhitespace = false := by
  simp only [pieceChars, List.mem_cons, List.not_mem_nil, or_false] at h
  rcases h with rfl | rfl | rfl | rfl | rfl | rfl | rfl | rfl | rfl | rfl | rfl | rfl <;> decide

theorem digit_not_slash (c : Char) (h : c.isDigit = true) : c ≠ '/' := by
  intro hc
  subst hc
  cases h

theorem digit_not_ws (c : Char) (h : c.isDigit = true) :
    c.isWhitespace = false := by
  unfold Char.isDigit at h
  unfold Char.isWhitespace
  simp only [Bool.and_eq_true, decide_eq_true_eq] at h
  simp only [Bool.or_eq_false_iff, decide_eq_false_iff_not]
  refine ⟨⟨⟨?_, ?_⟩, ?_⟩, ?_⟩ <;> intro hc <;> subst hc <;> revert h <;> decide

theorem goodRankChar_not_slash (c : Char) (h : goodRankChar c) : c ≠ '/' := by
  rcases h with ⟨hd, _, _⟩ | hp
  · exact digit_not_slash c hd
  · exact pieceChar_not_slash c hp

theorem goodRankChar_not_ws (c : Char) (h : goodRankChar c) :
    c.isWhitespace = false := by
  rcases h with ⟨hd, _, _⟩ | hp
  · exact digit_not_ws c hd
  · exact pieceChar_not_ws c hp

theorem goodRankChar_not_digit_of_piece (c : Char) (h : c ∈ pieceChars) :
    c.isDigit = false := pieceChar_not_digit c h

/-! Section: tokenizer lemmas for splitWs. -/

theorem wsTokensAux_nonws_append (xs : List Char) :
    ∀ (acc ys : List Char), (∀ c ∈ xs, c.isWhitespace = false) →
      wsTokensAux (xs ++ ys) acc = wsTokensAux ys (xs.reverse ++ acc) := by
  induction xs with
  | nil => intro acc ys _; rfl
  | cons x xs ih =>
      intro acc ys h
      rw [List.cons_append, wsTokensAux]
      rw [if_neg (by rw [h x (List.mem_cons_self x xs)]; simp)]
      rw [ih (x :: acc) ys (fun c hc => h c (List.mem_cons_of_mem _ hc))]
      simp [List.append_assoc]

theorem string_ne_empty_data (s : String) (h : s ≠ "") : s.data ≠ [] := by
  intro hd
  exact h (String.ext (hd.trans rfl))

theorem splitWs_single (s : String)
    (hc : ∀ c ∈ s.data, c.isWhitespace = false) (hne : s ≠ "") :
    splitWs s = [s] := by
  unfold splitWs
  have hdata : s.toList = s.data ++ [] := by simp [String.toList]
  rw [hdata, wsTokensAux_nonws_append s.data [] [] hc]
  unfold wsTokensAux
  rw [if_neg (by simp [string_ne_empty_data s hne])]
  rw [List.append_nil, List.reverse_reverse]

theorem splitWs_append_tail (s t : String)
    (hc : ∀ c ∈ s.data, c.isWhitespace = false) (hne : s ≠ "") :
    splitWs (s ++ " " ++ t) = s :: splitWs t := by
  unfold splitWs
  have hdata : (s ++ " " ++ t).toList = s.data ++ (' ' :: t.data) := by
    simp [String.toList, String.data_append]
  rw [hdata, wsTokensAux_nonws_append s.data [] (' ' :: t.data) hc]
  rw [wsTokensAux]
  rw [if_pos (by decide)]
  rw [if_neg (by simp [string_ne_empty_data s hne])]
  rw [List.append_nil, List.reverse_reverse]
  rfl

theorem natStr_digit (e : Nat) (h1 : 1 ≤ e) (h8 : e ≤ 8) :
    ∃ c, (natStr e).data = [c] ∧ c.isDigit = true ∧ c.toNat - 48 = e := by
  interval_cases e
  · exact ⟨'1', by decide⟩
  · exact ⟨'2', by decide⟩
  · exact ⟨'3', by decide⟩
  · exact ⟨'4', by decide⟩
  · exact ⟨'5', by decide⟩
  · exact ⟨'6', by decide⟩
  · exact ⟨'7', by decide⟩
  · exact ⟨'8', by decide⟩

theorem rle_invariant (cs : List Char) :
    ∀ (s0 : String) (e0 : Nat),
      (∀ c ∈ cs, validSquareChar c) → e0 + cs.length ≤ 8 →
      ∃ l, (cs.foldl rleStep (s0, e0)).1.data = s0.data ++ l ∧
        (∀ c ∈ l, goodRankChar c) ∧
        colsOfChars l + (cs.foldl rleStep (s0, e0)).2 = e0 + cs.length ∧
        (cs.foldl rleStep (s0, e0)).2 ≤ 8 := by
  induction cs with
  | nil =>
      intro s0 e0 _ hb
      exact ⟨[], by simp, by simp, by simp [colsOfChars], by simpa using hb⟩
  | cons c cs ih =>
      intro s0 e0 hv hb
      rw [List.foldl_cons]
      rcases hv c (List.mem_cons_self c cs) with hsp | hpc
      · subst hsp
        have hstep : rleStep (s0, e0) ' ' = (s0, e0 + 1) := by
          unfold rleStep
          rw [if_pos rfl]
        rw [hstep]
        obtain ⟨l, hl1, hl2, hl3, hl4⟩ :=
          ih s0 (e0 + 1) (fun c hc => hv c (List.mem_cons_of_mem _ hc))
            (by simp only [List.length_cons] at hb; omega)
        refine ⟨l, hl1, hl2, ?_, hl4⟩
        simp only [List.length_cons]
        omega
      · have hcsp : c ≠ ' ' := by
          intro hc
          subst hc
          exact absurd hpc (by decide)
        have hstep : rleStep (s0, e0) c =
            ((if e0 ≠ 0 then s0 ++ natStr e0 else s0) ++ c.toString, 0) := by
          unfold rleStep
          rw [if_neg hcsp]
        rw [hstep]
        have hb' : e0 ≤ 7 := by
          simp only [List.length_cons] at hb
          omega
        obtain ⟨l, hl1, hl2, hl3, hl4⟩ :=
          ih ((if e0 ≠ 0 then s0 ++ natStr e0 else s0) ++ c.toString) 0
            (fun c hc => hv c (List.mem_cons_of_mem _ hc))
            (by simp only [List.length_cons] at hb; omega)
        by_cases he0 : e0 = 0
        · subst he0
          refine ⟨c :: l, ?_, ?_, ?_, hl4⟩
          · rw [hl1]
            simp [String.data_append]
            rfl
          · intro x hx
            rcases List.mem_cons.1 hx with rfl | hx
            · exact Or.inr hpc
            · exact hl2 x hx
          · rw [colsOfChars_cons, pieceChar_not_digit c hpc]
            simp only [Bool.false_eq_true, if_false, List.length_cons]
            omega
        · obtain ⟨d, hd1, hd2, hd3⟩ := natStr_digit e0 (by omega) (by omega)
          refine ⟨d :: c :: l, ?_, ?_, ?_, hl4⟩
          · rw [hl1]
            rw [if_pos he0]
            simp [String.data_append, hd1]
            rfl
          · intro x hx
            rcases List.mem_cons.1 hx with rfl | hx
            · exact Or.inl ⟨hd2, by omega, by omega⟩
            rcases List.mem_cons.1 hx with rfl | hx
            · exact Or.inr hpc
            · exact hl2 x hx
          · rw [colsOfChars_cons, colsOfChars_cons, hd2,
              pieceChar_not_digit c hpc]
            simp only [Bool.false_eq_true, if_false, if_true, List.length_cons]
            rw [hd3]
            omega

theorem rankFromChars_good (cs : List Char)
    (hval : ∀ c ∈ cs, validSquareChar c) (hlen : cs.length = 8) :
    (∀ c ∈ (rankFromChars cs).data, goodRankChar c) ∧
      colsOfChars (rankFromChars cs).data = 8 ∧
      (rankFromChars cs).data ≠ [] := by
  obtain ⟨l, hl1, hl2, hl3, hl4⟩ :=
    rle_invariant cs "" 0 hval (by omega)
  unfold rankFromChars
  by_cases hfin : (cs.foldl rleStep ("", 0)).2 ≠ 0
  · rw [if_pos hfin]
    obtain ⟨d, hd1, hd2, hd3⟩ :=
      natStr_digit (cs.foldl rleStep ("", 0)).2 (by omega) hl4
    have hdata : ((cs.foldl rleStep ("", 0)).1 ++
        natStr (cs.foldl rleStep ("", 0)).2).data = l ++ [d] := by
      rw [String.data_append, hl1, hd1]
      simp
    rw [hdata]
    refine ⟨?_, ?_, by simp⟩
    · intro c hc
      rcases List.mem_append.1 hc with hc | hc
      · exact hl2 c hc
      · rcases List.mem_singleton.1 hc with rfl
        exact Or.inl ⟨hd2, by omega, by omega⟩
    · have hsplit : colsOfChars (l ++ [d]) = colsOfChars l + colsOfChars [d] := by
        unfold colsOfChars
        rw [List.map_append, List.sum_append]
      have hd : colsOfChars [d] = (cs.foldl rleStep ("", 0)).2 := by
        rw [colsOfChars_cons, hd2]
        simp [colsOfChars, hd3]
      rw [hsplit, hd]
      omega
  · rw [if_neg hfin]
    push_neg at hfin
    rw [hl1] at *
    simp only [List.nil_append] at *
    refine ⟨hl2, by omega, ?_⟩
    intro hnil
    rw [hnil] at hl3
    simp [colsOfChars] at hl3
    omega

theorem VALUE_TO_PIECE_valid (v : Nat) : validSquareChar (VALUE_TO_PIECE v) := by
  unfold VALUE_TO_PIECE validSquareChar
  split_ifs <;> simp [pieceChars]

theorem scanFen_append (xs ys : List Char) :
    ∀ st, scanFen (xs ++ ys) st =
      match scanFen xs st with
      | .ok st' => scanFen ys st'
      | .error e => .error e := by
  induction xs with
  | nil => intro st; rfl
  | cons c xs ih =>
      intro st
      rw [List.cons_append, scanFen, scanFen]
      rcases fenStep st c with e | st'
      · rfl
      · exact ih st'

theorem scanRank (l : List Char) :
    ∀ (r col : Nat) (bd : List (List Char)),
      (∀ c ∈ l, goodRankChar c) → r < 8 → col + colsOfChars l ≤ 8 →
      ∃ bd', scanFen l ⟨r, col, bd⟩ = .ok ⟨r, col + colsOfChars l, bd'⟩ := by
  induction l with
  | nil =>
      intro r col bd _ _ _
      exact ⟨bd, by simp [scanFen, colsOfChars]⟩
  | cons c l ih =>
      intro r col bd hgood hr hb
      rcases hgood c (List.mem_cons_self c l) with ⟨hd, hd1, hd8⟩ | hp
      · have hstep : fenStep ⟨r, col, bd⟩ c =
            .ok ⟨r, col + (c.toNat - 48), bd⟩ := by
          unfold fenStep
          rw [if_pos hd]
        rw [scanFen, hstep]
        rw [colsOfChars_cons, hd] at hb ⊢
        simp only [if_true] at hb ⊢
        obtain ⟨bd', hbd⟩ := ih r (col + (c.toNat - 48)) bd
          (fun x hx => hgood x (List.mem_cons_of_mem _ hx)) hr (by omega)
        refine ⟨bd', ?_⟩
        rw [hbd]
        congr 2
        omega
      · have hnd := pieceChar_not_digit c hp
        have hb' : col + 1 + colsOfChars l ≤ 8 := by
          have h := hb
          rw [colsOfChars_cons, hnd] at h
          simp only [Bool.false_eq_true, if_false] at h
          omega
        have hcond : ¬(8 ≤ (⟨r, col, bd⟩ : FenScan).row ∨
            8 ≤ (⟨r, col, bd⟩ : FenScan).col) := by
          show ¬(8 ≤ r ∨ 8 ≤ col)
          push_neg
          constructor <;> omega
        have hstep : fenStep ⟨r, col, bd⟩ c =
            .ok ⟨r, col + 1, setSquare bd r col c⟩ := by
          unfold fenStep
          rw [if_neg (by rw [hnd]; simp)]
          rw [if_neg (pieceChar_not_slash c hp)]
          rw [if_neg hcond]
        rw [scanFen, hstep]
        rw [colsOfChars_cons, hnd] at hb ⊢
        simp only [Bool.false_eq_true, if_false] at hb ⊢
        obtain ⟨bd', hbd⟩ := ih r (col + 1) (setSquare bd r col c)
          (fun x hx => hgood x (List.mem_cons_of_mem _ hx)) hr (by omega)
        refine ⟨bd', ?_⟩
        rw [hbd]
        congr 2
        omega

/-- A rank string with valid characters representing exactly eight
columns. -/
def rankOk (s : String) : Prop :=
  (∀ c ∈ s.data, goodRankChar c) ∧ colsOfChars s.data = 8

theorem scanRanks (ranks : List String) :
    ∀ (r : Nat) (bd : List (List Char)),
      (∀ s ∈ ranks, rankOk s) → ranks ≠ [] → r + ranks.length = 8 →
      ∃ bd', scanFen (joinSlash ranks).data ⟨r, 0, bd⟩ = .ok ⟨7, 8, bd'⟩ := by
  induction ranks with
  | nil =>
      intro r bd _ hne _
      exact absurd rfl hne
  | cons s ranks ih =>
      intro r bd hok hne hlen
      rcases ranks with _ | ⟨s2, rest⟩
      · simp only [List.length_cons, List.length_nil] at hlen
        have hr : r = 7 := by omega
        subst hr
        obtain ⟨h1, h2⟩ := hok s (List.mem_cons_self s [])
        obtain ⟨bd', hbd⟩ := scanRank s.data 7 0 bd h1 (by omega) (by omega)
        refine ⟨bd', ?_⟩
        show scanFen s.data ⟨7, 0, bd⟩ = _
        rw [hbd, h2]
      · have hjoin : (joinSlash (s :: s2 :: rest)).data =
            s.data ++ ('/' :: (joinSlash (s2 :: rest)).data) := by
          show (s ++ "/" ++ joinSlash (s2 :: rest)).data = _
          rw [String.data_append, String.data_append]
          simp
        rw [hjoin, scanFen_append]
        obtain ⟨h1, h2⟩ := hok s (List.mem_cons_self s _)
        simp only [List.length_cons] at hlen
        obtain ⟨bd1, hbd1⟩ := scanRank s.data r 0 bd h1 (by omega) (by omega)
        simp only [hbd1]
        have hslash : fenStep ⟨r, 0 + colsOfChars s.data, bd1⟩ '/' =
            .ok ⟨r + 1, 0, bd1⟩ := by
          unfold fenStep
          rw [if_neg (by decide), if_pos rfl]
        rw [scanFen]
        simp only [hslash]
        exact ih (r + 1) bd1 (fun x hx => hok x (List.mem_cons_of_mem _ hx))
          (by simp) (by simp only [List.length_cons] at *; omega)

theorem decodeRank_rankOk (data : List Nat) (r : Nat) :
    rankOk (decodeRank data r) ∧ (decodeRank data r).data ≠ [] := by
  have hval : ∀ c ∈ ((List.range 8).reverse).map
      (fun col => VALUE_TO_PIECE (decodeNibble data r col)), validSquareChar c := by
    intro c hc
    obtain ⟨v, _, rfl⟩ := List.mem_map.1 hc
    exact VALUE_TO_PIECE_valid _
  have hlen : (((List.range 8).reverse).map
      (fun col => VALUE_TO_PIECE (decodeNibble data r col))).length = 8 := by
    simp
  obtain ⟨h1, h2, h3⟩ := rankFromChars_good _ hval hlen
  exact ⟨⟨h1, h2⟩, h3⟩

theorem joinSlash_data_mem (ranks : List String) :
    ∀ c ∈ (joinSlash ranks).data, c = '/' ∨ ∃ s ∈ ranks, c ∈ s.data := by
  induction ranks with
  | nil =>
      intro c hc
      cases hc
  | cons s ranks ih =>
      rcases ranks with _ | ⟨s2, rest⟩
      · intro c hc
        exact Or.inr ⟨s, List.mem_cons_self s [], hc⟩
      · intro c hc
        have hdata : (joinSlash (s :: s2 :: rest)).data =
            s.data ++ '/' :: (joinSlash (s2 :: rest)).data := by
          show (s ++ "/" ++ joinSlash (s2 :: rest)).data = _
          rw [String.data_append, String.data_append]
          simp
        rw [hdata] at hc
        rcases List.mem_append.1 hc with hc | hc
        · exact Or.inr ⟨s, List.mem_cons_self s _, hc⟩
        · rcases List.mem_cons.1 hc with rfl | hc
          · exact Or.inl rfl
          · rcases ih c hc with h | ⟨t, ht, hct⟩
            · exact Or.inl h
            · exact Or.inr ⟨t, List.mem_cons_of_mem _ ht, hct⟩

theorem decodeFenBoard_eq_join (data : List Nat) :
    decodeFenBoard data =
      joinSlash ((List.range 8).map (fun row => decodeRank data row)) := rfl

theorem decodeFenBoard_chars (data : List Nat) :
    ∀ c ∈ (decodeFenBoard data).data, c.isWhitespace = false := by
  intro c hc
  rw [decodeFenBoard_eq_join] at hc
  rcases joinSlash_data_mem _ c hc with rfl | ⟨s, hs, hcs⟩
  · decide
  · obtain ⟨r, _, rfl⟩ := List.mem_map.1 hs
    exact goodRankChar_not_ws c ((decodeRank_rankOk data r).1.1 c hcs)

theorem joinSlash_two_mem (a b : String) (rest : List String) :
    '/' ∈ (joinSlash (a :: b :: rest)).data := by
  show '/' ∈ (a ++ "/" ++ joinSlash (b :: rest)).data
  rw [String.data_append, String.data_append]
  simp

theorem decodeFenBoard_ne_empty (data : List Nat) : decodeFenBoard data ≠ "" := by
  intro h
  have hm : '/' ∈ (decodeFenBoard data).data := by
    rw [show decodeFenBoard data =
      joinSlash (decodeRank data 0 :: decodeRank data 1 ::
        [decodeRank data 2, decodeRank data 3, decodeRank data 4,
         decodeRank data 5, decodeRank data 6, decodeRank data 7]) from rfl]
    exact joinSlash_two_mem _ _ _
  rw [h] at hm
  cases hm

theorem decode_normalizes (data : List Nat) :
    normalize_fen (decodeFenBoard data) =
      .ok (decodeFenBoard data ++ " " ++ DEFAULT_FEN_TAIL) := by
  unfold normalize_fen
  rw [splitWs_single _ (decodeFenBoard_chars data) (decodeFenBoard_ne_empty data)]

theorem decode_reparses (data : List Nat) :
    ∃ bd, chessBoardParse (decodeFenBoard data ++ " " ++ DEFAULT_FEN_TAIL) =
      .ok bd := by
  have hbo : board_only_fen (decodeFenBoard data ++ " " ++ DEFAULT_FEN_TAIL) =
      .ok (decodeFenBoard data) := by
    unfold board_only_fen
    rw [splitWs_append_tail _ _ (decodeFenBoard_chars data)
      (decodeFenBoard_ne_empty data)]
  have hok : ∀ s ∈ (List.range 8).map (fun row => decodeRank data row), rankOk s := by
    intro s hs
    obtain ⟨r, _, rfl⟩ := List.mem_map.1 hs
    exact (decodeRank_rankOk data r).1
  obtain ⟨bd', hscan⟩ := scanRanks ((List.range 8).map (fun row => decodeRank data row))
    0 emptyBoard hok (by simp) (by simp)
  have hscan' : scanFen (decodeFenBoard data).toList ⟨0, 0, emptyBoard⟩ =
      .ok ⟨7, 8, bd'⟩ := hscan
  refine ⟨bd', ?_⟩
  unfold chessBoardParse fen_to_board_array
  simp only [hbo, hscan']
  simp

/-- C3: on every notification that decodes to a board, the dispatch
normalizes the board-only FEN (always successfully), updates the cached
FEN and position unconditionally, and invokes the registered listeners
exactly when the normalized full FEN differs from the previously cached
one — once per listener on a change, and zero times when the same
notification is dispatched again (the resulting state re-dispatches to
itself with no listener invocations). -/
theorem c3_listener_fire_iff_changed (cbs : List PositionCallback)
    (s : DriverState) (data : List Nat) (bs : BoardState)
    (hdec : decode_board_state data = some bs) :
    ∃ full board,
      normalize_fen bs.fen_board = .ok full ∧
      chessBoardParse full = .ok board ∧
      onBoardState cbs s data =
        .ok ({ s with currentFen := some full, currentPosition := some board },
          if some full ≠ s.currentFen then
            cbs.map (fun cb => runCallback cb board)
          else []) ∧
      onBoardState cbs
          { s with currentFen := some full, currentPosition := some board } data =
        .ok ({ s with currentFen := some full, currentPosition := some board },
          []) := by
  have hbs : bs = ⟨decodeFenBoard data, data⟩ := by
    unfold decode_board_state at hdec
    split_ifs at hdec
    all_goals (cases hdec; rfl)
  subst hbs
  obtain ⟨board, hboard⟩ := decode_reparses data
  refine ⟨decodeFenBoard data ++ " " ++ DEFAULT_FEN_TAIL, board,
    decode_normalizes data, hboard, ?_, ?_⟩
  · unfold onBoardState
    simp only [hdec, decode_normalizes data, hboard]
    by_cases hch :
        some (decodeFenBoard data ++ " " ++ DEFAULT_FEN_TAIL) ≠ s.currentFen
    · rw [if_pos hch, if_pos hch]
    · rw [if_neg hch, if_neg hch]
  · unfold onBoardState
    simp only [hdec, decode_normalizes data, hboard]
    rw [if_neg (by simp)]

/-- C3 witness: dispatching an all-empty board frame from the initial
state fires the (failing) listener once, and redispatching the identical
frame from the resulting state fires nothing. -/
theorem c3_listener_fire_iff_changed_witness :
    decode_board_state frame0 = some ⟨"8/8/8/8/8/8/8/8", frame0⟩ ∧
      ∃ full board,
        normalize_fen "8/8/8/8/8/8/8/8" = .ok full ∧
        chessBoardParse full = .ok board ∧
        onBoardState [cbBoom] initialDriverState frame0 =
          .ok ({ initialDriverState with
                  currentFen := some full, currentPosition := some board },
            if some full ≠ initialDriverState.currentFen then
              [cbBoom].map (fun cb => runCallback cb board)
            else []) ∧
        onBoardState [cbBoom]
            { initialDriverState with
                currentFen := some full, currentPosition := some board } frame0 =
          .ok ({ initialDriverState with
                  currentFen := some full, currentPosition := some board },
            []) :=
  ⟨by rfl,
   c3_listener_fire_iff_changed [cbBoom] initialDriverState frame0
     ⟨"8/8/8/8/8/8/8/8", frame0⟩ (by rfl)⟩
